import Mathlib

/-!
Shallow embedding of the story-scraper pipeline (src/ScraperV2.3.8.py) and proofs
about the claims of its specification.

Conventions used throughout:
* Strings stay `String`, but every operation is implemented through `String.data`
  and `String.mk` so that all definitions reduce inside the kernel.
* Fetching and HTML parsing are external effects; a run is modelled against a
  "world": a finite association list (or function) from url to the data that
  fetching-and-extracting that url yields, `none` meaning the fetch failed.
  A fetch trace entry `(url, ok)` records one call of make_request_with_retry.
* urllib.parse.urljoin is an external collaborator and is passed in as a
  function parameter `uj`; every concrete input below uses absolute hrefs,
  for which urljoin returns the href unchanged.
-/

namespace Scraper

/-- Does `pat` occur as a contiguous run inside the character list? Models the
Python substring operator `pat in s`. -/
def listHasSub (pat : List Char) : List Char → Bool
  | [] => pat.isEmpty
  | c :: rest => pat.isPrefixOf (c :: rest) || listHasSub pat rest

/-- Python `pat in s` on strings. -/
def strContains (s pat : String) : Bool := listHasSub pat.data s.data

/-- Python str.lower (ASCII case folding suffices for the fixed keywords used). -/
def strLower (s : String) : String := ⟨s.data.map Char.toLower⟩

/-- Python str.strip: remove whitespace from both ends. -/
def strStrip (s : String) : String :=
  ⟨((s.data.dropWhile Char.isWhitespace).reverse.dropWhile Char.isWhitespace).reverse⟩

/-- Python str.startswith. -/
def strStartsWith (s pre : String) : Bool := pre.data.isPrefixOf s.data

/-- Python str.isdigit: nonempty and all digits. -/
def strIsDigit (s : String) : Bool := !s.data.isEmpty && s.data.all Char.isDigit

/-- The characters removed by sanitize_filename's first re.sub (line 39). -/
def forbiddenChars : List Char := ['<', '>', ':', '"', '/', '\\', '|', '?', '*']

/-- One pass of re.sub(r"\s+", " ", fn): every maximal whitespace run becomes a
single space. The flag records whether we are inside a whitespace run. -/
def collapseWsAux : Bool → List Char → List Char
  | _, [] => []
  | inRun, c :: rest =>
    if c.isWhitespace then
      (if inRun then [] else [' ']) ++ collapseWsAux true rest
    else c :: collapseWsAux false rest

/-- Embeds sanitize_filename (lines 38-41): strip forbidden characters, collapse
whitespace, trim, cap at 200 characters, fall back to "untitled". -/
def sanitize_filename (fn : String) : String :=
  let s1 := fn.data.filter (fun c => !forbiddenChars.contains c)
  let s2 := strStrip ⟨collapseWsAux false s1⟩
  let s3 : String := ⟨s2.data.take 200⟩
  if s3.data.isEmpty then "untitled" else s3

/- ## Fetcher (make_request_with_retry, lines 20-36) -/

/-- The fixed domain blocklist of line 21. -/
def blockedKeywords : List String := ["reddit", "twitter", "facebook", "twitch"]

/-- Line 22-23: the lowercased host contains some blocklist substring. -/
def hostBlocked (host : String) : Bool :=
  blockedKeywords.any (fun k => strContains (strLower host) k)

/-- Instrumented result of one make_request_with_retry call. `attempts` counts
loop iterations; each iteration is one sleep followed by one session.get, so
`attempts = 0` means no sleep and no network call happened. `result = none`
models returning None; `lastError` is the error reported on exhaustion. -/
structure FetchTrace where
  result : Option String
  attempts : Nat
  lastError : Option String
deriving DecidableEq

/-- The retry loop of lines 24-36. `outcome k` models the k-th session.get
combined with raise_for_status: ok for a 2xx response, error otherwise (a non-2xx
response raises and is retried). `remaining` counts the attempts still allowed
after the current one, so the loop runs `remaining + 1` more times at most. -/
def fetchGo (outcome : Nat → Except String String) (attempt : Nat) : Nat → FetchTrace
  | 0 =>
    match outcome attempt with
    | .ok r => ⟨some r, attempt + 1, none⟩
    | .error e => ⟨none, attempt + 1, some e⟩
  | r + 1 =>
    match outcome attempt with
    | .ok resp => ⟨some resp, attempt + 1, none⟩
    | .error _ => fetchGo outcome (attempt + 1) r

/-- Embeds make_request_with_retry (lines 20-36): the blocklist test precedes the
retry loop, so a blocked host returns with zero attempts. The hostname has
already been extracted from the url (urlparse is external). -/
def make_request_with_retry (host : String) (outcome : Nat → Except String String)
    (max_retries : Nat) : FetchTrace :=
  if hostBlocked host then ⟨none, 0, none⟩ else fetchGo outcome 0 max_retries

/- ## Renderer (create_pdf, lines 119-136) -/

/-- The block kinds create_pdf appends to the platypus story list. -/
inductive Block where
  | titleBlock (text : String)
  | heading1 (text : String)
  | heading2 (text : String)
  | normal (text : String)
  | spacer (height : Nat)
deriving DecidableEq

/-- Python single-character str.replace: every occurrence of `c` becomes `repl`. -/
def strReplaceChar (s : String) (c : Char) (repl : String) : String :=
  ⟨s.data.flatMap (fun x => if x = c then repl.data else [x])⟩

/-- The three chained replaces of line 132 (ampersand first, so no double escape). -/
def escapeMarkup (s : String) : String :=
  strReplaceChar (strReplaceChar (strReplaceChar s '&' "&amp;") '<' "&lt;") '>' "&gt;"

/-- Blocks emitted for one item of the fragment list (lines 125-133). -/
def renderItem (item : String) : List Block :=
  if strStartsWith item "Chapter " then [.heading1 item, .spacer 24]
  else if strStartsWith item "PART " then [.heading2 item, .spacer 12]
  else if (strStrip item).data.isEmpty then []
  else [.normal (escapeMarkup item), .spacer 6]

/-- Embeds create_pdf's document construction (lines 119-134): a title block and
spacer, then the per-item blocks. Writing the file is an external effect and the
exception path is environmental, so neither is modelled. -/
def create_pdf (title : String) (paras : List String) : List Block :=
  Block.titleBlock title :: Block.spacer 12 :: paras.flatMap renderItem

/- ## Extractor (extract_story_content and extract_story_links) -/

/-- An anchor element as the extractor reads it: visible text and href attribute,
with "" modelling a missing href (matching Python's falsiness test on it). -/
structure Anchor where
  text : String
  href : String
deriving DecidableEq

/-- A paragraph-like element: `text` models p.get_text(strip=True); `hrefs` the
href attributes of the anchors inside the element. -/
structure Para where
  text : String
  hrefs : List String
deriving DecidableEq

/-- The paragraph qualifier of line 85: stripped text longer than 10 characters
and no contained link whose lowercased target starts with "/s/". -/
def paraQual (p : Para) : Bool :=
  decide (10 < p.text.data.length) &&
    !(p.hrefs.any (fun h => strStartsWith (strLower h) "/s/"))

/-- Texts of the qualifying paragraphs of one selector's matches. -/
def qualParas (ps : List Para) : List String := (ps.filter paraQual).map Para.text

/-- The body-selector cascade of lines 78-87: the first selector whose qualifying
paragraphs number more than one wins. `bodySets` holds, per body selector in
order, the elements that selector matches on the page. -/
def firstBodyWin : List (List Para) → Option (List String)
  | [] => none
  | ps :: rest =>
    if ps.isEmpty then firstBodyWin rest
    else
      let val := qualParas ps
      if 1 < val.length then some val else firstBodyWin rest

/-- Embeds paragraph extraction (lines 75-90) including the fallback of lines
88-90 over all p elements with text longer than 20 characters. -/
def extract_paragraphs (bodySets : List (List Para)) (allPs : List Para) : List String :=
  match firstBodyWin bodySets with
  | some v => v
  | none => (allPs.filter (fun p => decide (20 < p.text.data.length))).map Para.text

/-- The per-anchor filter of line 97: an href is present and the text contains
"next" (case-insensitive), or the href contains "chapter" (case-insensitive), or
the stripped text is purely numeric. -/
def nextLinkCond (a : Anchor) : Bool :=
  !a.href.data.isEmpty &&
    (strContains (strLower a.text) "next" || strContains (strLower a.href) "chapter" ||
      strIsDigit (strStrip a.text))

/-- Embeds next-link extraction (lines 91-98): all four selector strategies
contribute in order — there is no break and no dedup. `sets` holds the anchors
each selector matches, in selector order. -/
def extract_next_links (uj : String → String → String) (storyUrl : String)
    (sets : List (List Anchor)) : List String :=
  sets.flatMap (fun links => (links.filter nextLinkCond).map (fun a => uj storyUrl a.href))

/-- The seen-set dedup loop of lines 60-63: keep the first pair for each url. -/
def dedupByUrl (seen : List String) : List (String × String) → List (String × String)
  | [] => []
  | (t, u) :: rest =>
    if u ∈ seen then dedupByUrl seen rest else (t, u) :: dedupByUrl (u :: seen) rest

/-- Embeds extract_story_links (lines 43-64) given the `(text, href)` anchors
matched by the first selector with any match: anchors without an href are
dropped, empty titles default to "Untitled", hrefs are resolved against the base
url, and urls are deduplicated within this single page. -/
def extract_story_links (uj : String → String → String) (base : String)
    (links : List (String × String)) : List (String × String) :=
  let found := links.filterMap (fun a =>
    if a.2.data.isEmpty then none
    else some ((if a.1.data.isEmpty then "Untitled" else a.1), uj base a.2))
  dedupByUrl [] found

/- ## Chapter ordering (scrape_story lines 153-171) -/

/-- int(m.group(1)): decimal value of a digit run. -/
def digitsVal (ds : List Char) : Nat :=
  ds.foldl (fun n c => n * 10 + (c.toNat - '0'.toNat)) 0

/-- Does the regex (?:Ch\.?|Pt\.?)\s*(\d+)(?:-\d+)? of line 164 match at the head
of the character list, and with which group-1 value? The greedy optional dot and
whitespace run are deterministic here: digits are disjoint from whitespace, and a
backtracked dot can never be matched by the following pieces. -/
def chTokenAt (cs : List Char) : Option Nat :=
  match cs with
  | c1 :: c2 :: rest =>
    if (c1.toLower = 'c' && c2.toLower = 'h') || (c1.toLower = 'p' && c2.toLower = 't') then
      let afterDot := match rest with
        | '.' :: r => r
        | _ => rest
      let ds := (afterDot.dropWhile Char.isWhitespace).takeWhile Char.isDigit
      if ds.isEmpty then none else some (digitsVal ds)
    else none
  | _ => none

/-- re.search: the match at the leftmost position where one exists. -/
def searchChToken : List Char → Option Nat
  | [] => none
  | c :: rest =>
    match chTokenAt (c :: rest) with
    | some n => some n
    | none => searchChToken rest

/-- The order key of lines 164-167: the parsed token number when the regex
matches; else 1 when the stripped label equals the stripped series title exactly
(case-sensitive) or the lowercased label starts with the lowercased title;
else 999. -/
def chapterNum (st label : String) : Nat :=
  match searchChToken label.data with
  | some n => n
  | none =>
    if strStrip label = strStrip st || strStartsWith (strLower label) (strLower st) then 1
    else 999

/-- A chapter candidate: label, resolved url, order key. -/
abbrev ChapterRef := String × String × Nat

/-- The chapter-selector cascade of lines 153-169 over the per-selector
`(text, href)` match lists: anchors survive when the href is nonempty and
contains "/s/"; the break fires only when a selector produced at least one
surviving link. -/
def chapterCandidates (uj : String → String → String) (base st : String) :
    List (List (String × String)) → List ChapterRef
  | [] => []
  | es :: rest =>
    let links := es.filterMap (fun a =>
      if !a.2.data.isEmpty && strContains a.2 "/s/" then
        some (a.1, (if strStartsWith a.2 "http" then a.2 else uj base a.2), chapterNum st a.1)
      else none)
    if links.isEmpty then chapterCandidates uj base st rest else links

/-- Stable insertion by the order key: an element goes before the first entry
with a key not smaller than its own, keeping equal keys in original order. -/
def insertChapter (a : ChapterRef) : List ChapterRef → List ChapterRef
  | [] => [a]
  | b :: l => if a.2.2 ≤ b.2.2 then a :: b :: l else b :: insertChapter a l

/-- Models ch_links.sort(key=lambda x: x[2]) of line 171. Python's list.sort is a
stable sort by the key, which determines it uniquely; the lemmas below prove this
implementation sorted, a permutation, and stable. -/
def sortChapters : List ChapterRef → List ChapterRef
  | [] => []
  | a :: l => insertChapter a (sortChapters l)

/-- Lines 153-171 combined: candidates of the first productive selector, stably
sorted ascending by the order key. -/
def resolveChapters (uj : String → String → String) (base st : String)
    (sets : List (List (String × String))) : List ChapterRef :=
  sortChapters (chapterCandidates uj base st sets)

/- ## Pipeline state (scrape_story and its traversals) -/

/-- What fetching and parsing one url yields, as the pipeline consumes it: the
extract_story_content quadruple plus the two pieces of a series page scrape_story
reads (its h1 text and its per-chapter-selector match lists). A world maps a url
to some PageData (successful fetch) or none (failed fetch, the None return of
make_request_with_retry). -/
structure PageData where
  title : String
  paras : List String
  nexts : List String
  series : Option String
  h1 : Option String
  chAnchors : List (List (String × String))
deriving DecidableEq

/-- Instrumented result of one chapter/page walk. `allc` is the fragment list the
loop builds, `trace` the fetches it performed in order (url, succeeded), `processed`
the urls that reached the part counter increment, `part` the final counter. The
trace and processed fields are ghost instrumentation; they do not influence the
computation. -/
structure WalkResult where
  allc : List String
  trace : List (String × Bool)
  processed : List String
  part : Nat
deriving DecidableEq

/-- The marker string of lines 185 and 215. -/
def partMarker (p : Nat) : String := "PART " ++ toString p

/-- The discovered-link append loop of lines 187-188 and 217-218: append each
link not already visited and not already queued, checking against the queue as it
grows. -/
def enqueue (done todo nexts : List String) : List String :=
  nexts.foldl (fun td n => if n ∈ done ∨ n ∈ td then td else td ++ [n]) todo

/-- Fragments one page contributes (lines 184-186 and 214-216): nothing when the
page had no paragraphs, else its paragraphs, preceded by a PART marker when the
part index exceeds 1. -/
def contrib (part : Nat) (paras : List String) : List String :=
  if paras.isEmpty then [] else (if 1 < part then [partMarker part] else []) ++ paras

/-- The single-story page walk of lines 203-219. The seed url surl uses the
already-fetched content pp/chs of line 208 instead of fetching; a url whose fetch
fails is skipped entirely — in particular the part counter of line 219 is not
reached for it. Fuel-indexed: none models running out of fuel, and the
termination theorem below shows sufficient fuel always exists. -/
def storyWalkAux (world : List (String × PageData)) (surl : String) (pp chs : List String) :
    Nat → List String → List String → Nat → List String → List (String × Bool) →
      List String → Option WalkResult
  | _, [], _, part, allc, trace, processed => some ⟨allc, trace, processed, part⟩
  | 0, _ :: _, _, _, _, _, _ => none
  | f + 1, cu :: rest, done, part, allc, trace, processed =>
    if cu ∈ done then storyWalkAux world surl pp chs f rest done part allc trace processed
    else
      if cu = surl then
        storyWalkAux world surl pp chs f (enqueue (cu :: done) rest chs) (cu :: done)
          (part + 1) (allc ++ contrib part pp) trace (processed ++ [cu])
      else
        match world.lookup cu with
        | none =>
          storyWalkAux world surl pp chs f rest (cu :: done) part allc
            (trace ++ [(cu, false)]) processed
        | some pd =>
          storyWalkAux world surl pp chs f (enqueue (cu :: done) rest pd.nexts) (cu :: done)
            (part + 1) (allc ++ contrib part pd.paras) (trace ++ [(cu, true)])
            (processed ++ [cu])

/-- The walk of lines 203-219 from its initial state (line 203). -/
def storyWalk (world : List (String × PageData)) (surl : String) (pp chs : List String)
    (fuel : Nat) : Option WalkResult :=
  storyWalkAux world surl pp chs fuel [surl] [] 1 [] [] []

/-- The per-chapter page walk of lines 175-189: identical to the story walk except
that the seed has no pre-fetched content. -/
def chapterWalkAux (world : List (String × PageData)) :
    Nat → List String → List String → Nat → List String → List (String × Bool) →
      List String → Option WalkResult
  | _, [], _, part, pc, trace, processed => some ⟨pc, trace, processed, part⟩
  | 0, _ :: _, _, _, _, _, _ => none
  | f + 1, cu :: rest, done, part, pc, trace, processed =>
    if cu ∈ done then chapterWalkAux world f rest done part pc trace processed
    else
      match world.lookup cu with
      | none =>
        chapterWalkAux world f rest (cu :: done) part pc (trace ++ [(cu, false)]) processed
      | some pd =>
        chapterWalkAux world f (enqueue (cu :: done) rest pd.nexts) (cu :: done) (part + 1)
          (pc ++ contrib part pd.paras) (trace ++ [(cu, true)]) (processed ++ [cu])

/-- The series-discovery walk find_series_link_from_all_pages (lines 104-117):
same queue/visited discipline, but it returns the first series link found, before
enqueuing that page's next links. Result: none = out of fuel; some (found, trace)
otherwise. -/
def findSeriesAux (world : List (String × PageData)) :
    Nat → List String → List String → List (String × Bool) →
      Option (Option String × List (String × Bool))
  | _, [], _, trace => some (none, trace)
  | 0, _ :: _, _, _ => none
  | f + 1, u :: rest, done, trace =>
    if u ∈ done then findSeriesAux world f rest done trace
    else
      match world.lookup u with
      | none => findSeriesAux world f rest (u :: done) (trace ++ [(u, false)])
      | some pd =>
        match pd.series with
        | some ser => some (some ser, trace ++ [(u, true)])
        | none =>
          findSeriesAux world f (enqueue (u :: done) rest pd.nexts) (u :: done)
            (trace ++ [(u, true)])

/-- The walk of lines 104-117 from its initial state (line 105). -/
def findSeries (world : List (String × PageData)) (surl : String) (fuel : Nat) :
    Option (Option String × List (String × Bool)) :=
  findSeriesAux world fuel [surl] [] []

/-- The per-chapter loop of lines 172-191: walk each sorted chapter and append its
header (a leading newline except for chapter 1) followed by its collected parts. -/
def chaptersLoop (world : List (String × PageData)) (fuel : Nat) :
    List ChapterRef → Nat → List String → List (String × Bool) →
      Option (List String × List (String × Bool))
  | [], _, allc, trace => some (allc, trace)
  | c :: rest, cnum, allc, trace =>
    match chapterWalkAux world fuel [c.2.1] [] 1 [] trace [] with
    | none => none
    | some r =>
      let header := (if cnum = 1 then "" else "\n") ++ "Chapter " ++ toString cnum ++ ": " ++ c.1
      chaptersLoop world fuel rest (cnum + 1) (allc ++ header :: r.allc) r.trace

/-- The single-story tail of scrape_story (lines 194-223): fetch the story page
(returning failure when that fetch fails), resolve the title with the
caller-supplied fallback, skip when the artifact already exists (lines 199-202),
else walk the pages and succeed exactly when fragments were collected. `fs name`
models os.path.exists for the artifact of the sanitized name; trace is the fetch
trace accumulated so far. -/
def scrapeStorySingle (world : List (String × PageData)) (fs : String → Bool) (fuel : Nat)
    (stitle surl : String) (trace : List (String × Bool)) :
    Option (Bool × List (String × Bool)) :=
  match world.lookup surl with
  | none => some (false, trace ++ [(surl, false)])
  | some pd =>
    let tr1 := trace ++ [(surl, true)]
    let ft := if pd.title.data.isEmpty then stitle else pd.title
    if fs (sanitize_filename ft) then some (true, tr1)
    else
      match storyWalkAux world surl pd.paras pd.nexts fuel [surl] [] 1 [] tr1 [] with
      | none => none
      | some r => some (!r.allc.isEmpty, r.trace)

/-- Embeds scrape_story (lines 138-223). With full_series set, it first runs the
series-discovery walk; when a series is found and its page fetch succeeds, the
series title comes from the page's h1 (else the caller's title), the skip check
of lines 150-152 runs, and the sorted chapters are each walked; every failing
branch falls through to single-story mode. Rendering is modelled as succeeding.
The result pairs the returned boolean with the full ordered fetch trace. -/
def scrape_story (world : List (String × PageData)) (uj : String → String → String)
    (fs : String → Bool) (base : String) (fuel : Nat) (stitle surl : String)
    (fullSeries : Bool) : Option (Bool × List (String × Bool)) :=
  match (if fullSeries then findSeriesAux world fuel [surl] [] [] else some (none, [])) with
  | none => none
  | some (seriesOpt, tr0) =>
    match seriesOpt with
    | none => scrapeStorySingle world fs fuel stitle surl tr0
    | some ser =>
      match world.lookup ser with
      | none => scrapeStorySingle world fs fuel stitle surl (tr0 ++ [(ser, false)])
      | some spd =>
        let tr1 := tr0 ++ [(ser, true)]
        let st := spd.h1.getD stitle
        if fs (sanitize_filename st) then some (true, tr1)
        else
          let chLinks := resolveChapters uj base st spd.chAnchors
          if chLinks.isEmpty then scrapeStorySingle world fs fuel stitle surl tr1
          else
            match chaptersLoop world fuel chLinks 1 [] tr1 with
            | none => none
            | some (allc, tr2) =>
              if allc.isEmpty then scrapeStorySingle world fs fuel stitle surl tr2
              else some (true, tr2)

/- ## Category pagination (get_next_page_url and scrape_category) -/

/-- re.sub(r"page=\d+", repl, s): leftmost, non-overlapping replacement of every
"page=" token followed by a maximal nonempty digit run. Fuel-driven with fuel =
length of the list; every step consumes at least one character. -/
def subPageAux (repl : List Char) : Nat → List Char → List Char
  | 0, l => l
  | _ + 1, [] => []
  | f + 1, c :: rest =>
    if ['p', 'a', 'g', 'e', '='].isPrefixOf (c :: rest) then
      let tl := (c :: rest).drop 5
      let ds := tl.takeWhile Char.isDigit
      if ds.isEmpty then c :: subPageAux repl f rest
      else repl ++ subPageAux repl f (tl.drop ds.length)
    else c :: subPageAux repl f rest

/-- The re.sub of line 236 on strings. -/
def subPageParam (s repl : String) : String := ⟨subPageAux repl.data s.data.length s.data⟩

/-- Embeds get_next_page_url (lines 225-241) as scrape_category calls it: with
soup=None (line 247), so the selector scan of lines 226-233 is skipped and only
the query-rewriting tail runs. -/
def get_next_page_url (base : String) (cur : Nat) : String :=
  let pstr := "page=" ++ toString (cur + 1)
  let nxt :=
    if base.data.contains '?' then
      if strContains base "page=" then subPageParam base pstr
      else base ++ "&" ++ pstr
    else base ++ "?" ++ pstr
  if strStartsWith base "https://tags.literotica.com/" then
    (⟨base.data.takeWhile (· ≠ '?')⟩ : String) ++ "?" ++ pstr
  else nxt

/-- The page loop of scrape_category (lines 245-260) restricted to the sequence
of story links it produces; the per-story scrape_story calls do not feed back
into this sequence. `catWorld` maps a listing-page url to the (text, href)
anchors its first productive story-link selector matches, or none when the fetch
fails. `remaining` counts the loop iterations left (max_pages - cur + 1). -/
def catLoop (catWorld : String → Option (List (String × String)))
    (uj : String → String → String) (base : String) :
    Nat → List String → Nat → List (String × String)
  | 0, _, _ => []
  | r + 1, done, cur =>
    let page := if cur = 1 then base else get_next_page_url base cur
    if page.data.isEmpty ∨ page ∈ done then []
    else
      match catWorld page with
      | none => []
      | some links =>
        let stories := extract_story_links uj base links
        if stories.isEmpty then []
        else stories ++ catLoop catWorld uj base r (page :: done) (cur + 1)

/-- Embeds scrape_category (lines 243-261): the full ordered sequence of story
links produced across all visited listing pages. -/
def scrape_category (catWorld : String → Option (List (String × String)))
    (uj : String → String → String) (base : String) (maxPages : Nat) :
    List (String × String) :=
  catLoop catWorld uj base maxPages [] 1

/- ## Definitions following claim wording, for comparison with the code -/

/-- Follows claim C6's words, for comparison with chapterNum: the tie rule gives
order 1 when the label equals the series title case-insensitively after
trimming. -/
def chapterNumClaimed (st label : String) : Nat :=
  match searchChToken label.data with
  | some n => n
  | none => if strLower (strStrip label) = strLower (strStrip st) then 1 else 999

/-- Follows claim C6's words: the same candidate cascade, keyed by the claimed
order rule and stably sorted. -/
def chapterCandidatesClaimed (uj : String → String → String) (base st : String) :
    List (List (String × String)) → List ChapterRef
  | [] => []
  | es :: rest =>
    let links := es.filterMap (fun a =>
      if !a.2.data.isEmpty && strContains a.2 "/s/" then
        some (a.1, (if strStartsWith a.2 "http" then a.2 else uj base a.2),
          chapterNumClaimed st a.1)
      else none)
    if links.isEmpty then chapterCandidatesClaimed uj base st rest else links

/-- Follows claim C6's words: stable sort of the claimed-keyed candidates. -/
def resolveChaptersClaimed (uj : String → String → String) (base st : String)
    (sets : List (List (String × String))) : List ChapterRef :=
  sortChapters (chapterCandidatesClaimed uj base st sets)

/-- Follows claim C8's words, for comparison with nextLinkCond: an anchor
qualifies when its text contains "next" case-insensitively, or its target
contains a chapter/page indicator, or its text is purely numeric. -/
def nextLinkCondClaimed (a : Anchor) : Bool :=
  strContains (strLower a.text) "next" || strContains (strLower a.href) "chapter" ||
    strContains (strLower a.href) "page" || strIsDigit (strStrip a.text)

/-- Follows claim C3's words, for comparison with storyWalkAux: identical walk
except that a url whose fetch failed still advances the part index. -/
def storyWalkClaimedAux (world : List (String × PageData)) (surl : String)
    (pp chs : List String) :
    Nat → List String → List String → Nat → List String → List (String × Bool) →
      List String → Option WalkResult
  | _, [], _, part, allc, trace, processed => some ⟨allc, trace, processed, part⟩
  | 0, _ :: _, _, _, _, _, _ => none
  | f + 1, cu :: rest, done, part, allc, trace, processed =>
    if cu ∈ done then storyWalkClaimedAux world surl pp chs f rest done part allc trace processed
    else
      if cu = surl then
        storyWalkClaimedAux world surl pp chs f (enqueue (cu :: done) rest chs) (cu :: done)
          (part + 1) (allc ++ contrib part pp) trace (processed ++ [cu])
      else
        match world.lookup cu with
        | none =>
          storyWalkClaimedAux world surl pp chs f rest (cu :: done) (part + 1) allc
            (trace ++ [(cu, false)]) (processed ++ [cu])
        | some pd =>
          storyWalkClaimedAux world surl pp chs f (enqueue (cu :: done) rest pd.nexts)
            (cu :: done) (part + 1) (allc ++ contrib part pd.paras) (trace ++ [(cu, true)])
            (processed ++ [cu])

/-- Follows claim C3's words: the claimed walk from the initial state. -/
def storyWalkClaimed (world : List (String × PageData)) (surl : String) (pp chs : List String)
    (fuel : Nat) : Option WalkResult :=
  storyWalkClaimedAux world surl pp chs fuel [surl] [] 1 [] [] []

/- ## Fetcher lemmas and claims C4, C5 -/

lemma fetchGo_attempts_le (outcome : Nat → Except String String) :
    ∀ remaining attempt, (fetchGo outcome attempt remaining).attempts ≤ attempt + remaining + 1 := by
  intro remaining
  induction remaining with
  | zero =>
    intro attempt
    unfold fetchGo
    cases outcome attempt <;> simp
  | succ r ih =>
    intro attempt
    unfold fetchGo
    cases outcome attempt with
    | ok resp => simp
    | error e =>
      have := ih (attempt + 1)
      simpa [Nat.add_assoc, Nat.add_comm, Nat.add_left_comm] using this

lemma fetchGo_all_fail (outcome : Nat → Except String String) :
    ∀ remaining attempt,
      (∀ k, attempt ≤ k → k ≤ attempt + remaining → (outcome k).isOk = false) →
      ∃ e, outcome (attempt + remaining) = Except.error e ∧
        fetchGo outcome attempt remaining = ⟨none, attempt + remaining + 1, some e⟩ := by
  intro remaining
  induction remaining with
  | zero =>
    intro attempt h
    have h0 := h attempt (Nat.le_refl _) (Nat.le_of_eq rfl)
    cases hout : outcome attempt with
    | ok resp => rw [hout] at h0; simp [Except.isOk, Except.toBool] at h0
    | error e => exact ⟨e, by simpa using hout, by unfold fetchGo; rw [hout]⟩
  | succ r ih =>
    intro attempt h
    have h0 := h attempt (Nat.le_refl _) (Nat.le_add_right _ _)
    cases hout : outcome attempt with
    | ok resp => rw [hout] at h0; simp [Except.isOk, Except.toBool] at h0
    | error e =>
      have hrec := ih (attempt + 1) (fun k h1 h2 => h k (by omega) (by omega))
      obtain ⟨e2, he2, heq⟩ := hrec
      refine ⟨e2, ?_, ?_⟩
      · have : attempt + 1 + r = attempt + (r + 1) := by omega
        rwa [this] at he2
      · unfold fetchGo
        rw [hout, heq]
        have : attempt + 1 + r = attempt + (r + 1) := by omega
        rw [this]

/-- C4: for every url whose host contains one of the fixed blocklist substrings,
make_request_with_retry returns immediately with zero loop iterations — no sleep
and no network attempt — and a None result (the blocked outcome). -/
theorem c4_blocked_host_no_attempt (host : String) (outcome : Nat → Except String String)
    (max_retries : Nat) (h : hostBlocked host = true) :
    make_request_with_retry host outcome max_retries =
      ⟨none, 0, none⟩ := by
  simp [make_request_with_retry, h]

/-- Witness for C4 at a concrete blocked host. -/
theorem c4_blocked_host_no_attempt_witness :
    hostBlocked "www.reddit.com" = true ∧
      make_request_with_retry "www.reddit.com" (fun _ => Except.error "e") 3 =
        ⟨none, 0, none⟩ :=
  ⟨by decide, c4_blocked_host_no_attempt "www.reddit.com" (fun _ => Except.error "e") 3 (by decide)⟩

/-- C5: for every non-blocked host the fetcher makes at most max_retries + 1
attempts, and when every allowed attempt fails it makes exactly max_retries + 1
attempts and returns the exhausted outcome (None) carrying the last error;
intermediate failures appear nowhere in the result. -/
theorem c5_attempt_bound_and_exhaustion (host : String) (outcome : Nat → Except String String)
    (max_retries : Nat) (hb : hostBlocked host = false) :
    (make_request_with_retry host outcome max_retries).attempts ≤ max_retries + 1 ∧
    ((∀ k, k ≤ max_retries → (outcome k).isOk = false) →
      ∃ e, outcome max_retries = Except.error e ∧
        make_request_with_retry host outcome max_retries =
          ⟨none, max_retries + 1, some e⟩) := by
  constructor
  · have := fetchGo_attempts_le outcome max_retries 0
    simp [make_request_with_retry, hb]
    omega
  · intro hfail
    have := fetchGo_all_fail outcome max_retries 0 (fun k h1 h2 => hfail k (by omega))
    simpa [make_request_with_retry, hb] using this

/-- Witness for C5: three attempts, exhausted with the last error surfaced. -/
theorem c5_attempt_bound_and_exhaustion_witness :
    (make_request_with_retry "example.com" (fun _ => Except.error "boom") 2).attempts ≤ 3 ∧
    (∃ e, (Except.error "boom" : Except String String) = Except.error e ∧
      make_request_with_retry "example.com" (fun _ => Except.error "boom") 2 =
        ⟨none, 3, some e⟩) := by
  have h := c5_attempt_bound_and_exhaustion "example.com" (fun _ => Except.error "boom") 2
    (by decide)
  exact ⟨h.1, h.2 (fun k _ => rfl)⟩

/- ## Renderer claim C10 -/

/-- C10: in the rendered document, markup escaping of &, <, > is applied only to
items that start with neither "Chapter " nor "PART " (every normal paragraph
block carries the escaped text of such an item), while any item starting with one
of those prefixes — whatever its origin — is emitted as a heading block holding
the item text unescaped, not as a paragraph block. -/
theorem c10_escape_only_outside_headings (title : String) (paras : List String) :
    (∀ s, Block.normal s ∈ create_pdf title paras →
      ∃ item, item ∈ paras ∧ strStartsWith item "Chapter " = false ∧
        strStartsWith item "PART " = false ∧ s = escapeMarkup item) ∧
    (∀ item, item ∈ paras → strStartsWith item "Chapter " = true →
      Block.heading1 item ∈ create_pdf title paras ∧
        Block.normal (escapeMarkup item) ∉ renderItem item) ∧
    (∀ item, item ∈ paras → strStartsWith item "Chapter " = false →
      strStartsWith item "PART " = true →
      Block.heading2 item ∈ create_pdf title paras ∧
        Block.normal (escapeMarkup item) ∉ renderItem item) := by
  refine ⟨?_, ?_, ?_⟩
  · intro s hs
    simp only [create_pdf, List.mem_cons] at hs
    rcases hs with h | h | h
    · cases h
    · cases h
    · rw [List.mem_flatMap] at h
      obtain ⟨item, hitem, hblock⟩ := h
      refine ⟨item, hitem, ?_⟩
      unfold renderItem at hblock
      by_cases h1 : strStartsWith item "Chapter " = true
      · simp [h1] at hblock
      · by_cases h2 : strStartsWith item "PART " = true
        · simp [h1, h2] at hblock
        · by_cases h3 : (strStrip item).data.isEmpty = true
          · simp [h1, h2, h3] at hblock
          · simp only [Bool.not_eq_true] at h1 h2 h3
            simp [h1, h2, h3] at hblock
            exact ⟨h1, h2, hblock⟩
  · intro item hitem h1
    constructor
    · simp only [create_pdf, List.mem_cons]
      refine Or.inr (Or.inr ?_)
      rw [List.mem_flatMap]
      exact ⟨item, hitem, by simp [renderItem, h1]⟩
    · simp [renderItem, h1]
  · intro item hitem h1 h2
    constructor
    · simp only [create_pdf, List.mem_cons]
      refine Or.inr (Or.inr ?_)
      rw [List.mem_flatMap]
      exact ⟨item, hitem, by simp [renderItem, h1, h2]⟩
    · simp [renderItem, h1, h2]

/-- Witness for C10: an ordinary body paragraph that happens to begin with
"Chapter " is emitted as an unescaped heading. -/
theorem c10_escape_only_outside_headings_witness :
    Block.heading1 "Chapter 1: A & B" ∈ create_pdf "t" ["Chapter 1: A & B"] ∧
      Block.normal (escapeMarkup "Chapter 1: A & B") ∉ renderItem "Chapter 1: A & B" :=
  (c10_escape_only_outside_headings "t" ["Chapter 1: A & B"]).2.1 "Chapter 1: A & B"
    (List.mem_singleton.mpr rfl) (by decide)

/- ## Extractor lemmas and claim C9 -/

lemma firstBodyWin_eq_of_first (win : List Para) (post : List (List Para)) :
    ∀ pre, (∀ l ∈ pre, (qualParas l).length ≤ 1) → 1 < (qualParas win).length →
      firstBodyWin (pre ++ win :: post) = some (qualParas win) := by
  intro pre
  induction pre with
  | nil =>
    intro _ hwin
    have hne : win.isEmpty = false := by
      cases win with
      | nil => simp [qualParas] at hwin
      | cons a l => rfl
    simp only [List.nil_append]
    unfold firstBodyWin
    simp [hne, hwin]
  | cons hd tl ih =>
    intro hpre hwin
    have hhd := hpre hd (List.mem_cons_self hd tl)
    have hrec := ih (fun l hl => hpre l (List.mem_cons_of_mem hd hl)) hwin
    simp only [List.cons_append]
    unfold firstBodyWin
    by_cases hempty : hd.isEmpty = true
    · simp [hempty, hrec]
    · simp only [Bool.not_eq_true] at hempty
      have : ¬ 1 < (qualParas hd).length := by omega
      simp [hempty, this, hrec]

lemma firstBodyWin_eq_none (sets : List (List Para)) :
    (∀ l ∈ sets, (qualParas l).length ≤ 1) → firstBodyWin sets = none := by
  induction sets with
  | nil => intro _; rfl
  | cons hd tl ih =>
    intro h
    have hhd := h hd (List.mem_cons_self hd tl)
    have hrec := ih (fun l hl => h l (List.mem_cons_of_mem hd hl))
    unfold firstBodyWin
    by_cases hempty : hd.isEmpty = true
    · simp [hempty, hrec]
    · simp only [Bool.not_eq_true] at hempty
      have : ¬ 1 < (qualParas hd).length := by omega
      simp [hempty, this, hrec]

/-- C9: paragraph extraction returns the qualifying paragraphs of the first body
selector strategy with more than one qualifying paragraph (qualifying: stripped
text longer than 10 characters, no contained story-path link), and when no
strategy achieves that, it returns every paragraph-like element with text longer
than 20 characters. -/
theorem c9_first_winning_strategy (bodySets : List (List Para)) (allPs : List Para) :
    (∀ pre win post, bodySets = pre ++ win :: post →
      (∀ l ∈ pre, (qualParas l).length ≤ 1) → 1 < (qualParas win).length →
      extract_paragraphs bodySets allPs = qualParas win) ∧
    ((∀ l ∈ bodySets, (qualParas l).length ≤ 1) →
      extract_paragraphs bodySets allPs =
        (allPs.filter (fun p => decide (20 < p.text.data.length))).map Para.text) := by
  constructor
  · intro pre win post heq hpre hwin
    subst heq
    unfold extract_paragraphs
    rw [firstBodyWin_eq_of_first win post pre hpre hwin]
  · intro hall
    unfold extract_paragraphs
    rw [firstBodyWin_eq_none bodySets hall]

/-- Witness for C9: the first selector matches only a related-stories block, the
second wins with two qualifying paragraphs. -/
theorem c9_first_winning_strategy_witness :
    extract_paragraphs
        [[⟨"related story link here", ["/s/other"]⟩],
          [⟨"long paragraph one", []⟩, ⟨"long paragraph two", []⟩]] [] =
      qualParas [⟨"long paragraph one", []⟩, ⟨"long paragraph two", []⟩] :=
  (c9_first_winning_strategy
      [[⟨"related story link here", ["/s/other"]⟩],
        [⟨"long paragraph one", []⟩, ⟨"long paragraph two", []⟩]] []).1
    [[⟨"related story link here", ["/s/other"]⟩]]
    [⟨"long paragraph one", []⟩, ⟨"long paragraph two", []⟩] [] rfl (by decide) (by decide)

/- ## Next-link claim C8 -/

/-- C8 counterexample: an anchor matched by the a[href*="page"] selector whose
target contains the page indicator "page" (and no "chapter"), with non-"next",
non-numeric text, satisfies the claimed qualifier yet is not returned: the code
filter of line 97 only tests "chapter" in the href. -/
theorem c8_counterexample :
    nextLinkCondClaimed ⟨"more", "x?page=2"⟩ = true ∧
    extract_next_links (fun _ h => h) "http://b.com"
        [[], [⟨"more", "x?page=2"⟩], [], []] = [] := by
  constructor
  · decide
  · decide

lemma count_filtered_map (uj : String → String → String) (storyUrl u : String) :
    ∀ l : List Anchor,
      ((l.filter nextLinkCond).map (fun a => uj storyUrl a.href)).count u =
        l.countP (fun a => nextLinkCond a && (uj storyUrl a.href == u)) := by
  intro l
  induction l with
  | nil => rfl
  | cons a rest ih =>
    by_cases h : nextLinkCond a = true
    · simp only [List.filter_cons, h, if_true, List.map_cons, List.count_cons,
        List.countP_cons, ih, h]
      simp [List.count_cons, List.countP_cons]
    · simp only [Bool.not_eq_true] at h
      simp [List.filter_cons, h, List.countP_cons, ih]

/-- C8 amended: an anchor found by the strategies is returned exactly when its
href is present and its text contains "next" case-insensitively, or its href
contains "chapter" case-insensitively (a "page" indicator alone does not pass
the filter), or its stripped text is purely numeric; qualifying anchors are
resolved against the page url and kept with multiplicity (no dedup), in
strategy-then-document order. -/
theorem c8_next_links_characterization (uj : String → String → String) (storyUrl : String)
    (sets : List (List Anchor)) (u : String) :
    (u ∈ extract_next_links uj storyUrl sets ↔
      ∃ a, a ∈ sets.flatMap id ∧ nextLinkCond a = true ∧ u = uj storyUrl a.href) ∧
    (extract_next_links uj storyUrl sets).count u =
      (sets.flatMap id).countP (fun a => nextLinkCond a && (uj storyUrl a.href == u)) := by
  constructor
  · unfold extract_next_links
    simp only [List.mem_flatMap, List.mem_map, List.mem_filter, id]
    constructor
    · rintro ⟨l, hl, a, ⟨ha, hcond⟩, heq⟩
      exact ⟨a, ⟨l, hl, ha⟩, hcond, heq.symm⟩
    · rintro ⟨a, ⟨l, hl, ha⟩, hcond, heq⟩
      exact ⟨l, hl, a, ⟨ha, hcond⟩, heq.symm⟩
  · induction sets with
    | nil => rfl
    | cons l rest ih =>
      unfold extract_next_links at ih ⊢
      simp only [List.flatMap_cons, List.count_append, List.countP_append, ih,
        count_filtered_map uj storyUrl u l, id]

/- ## Listing-page dedup claim C7 -/

/-- C7 counterexample: a two-page category crawl where the same story link occurs
on both visited listing pages; the produced sequence repeats the url, so it is
not deduplicated across pages. (The pages visited are the base url and the one
get_next_page_url derives for cur = 2.) -/
theorem c7_counterexample :
    scrape_category
        (fun p => if p == "http://x.com" || p == "http://x.com?page=3" then
          some [("T", "http://x.com/s/a")] else none)
        (fun _ h => h) "http://x.com" 2 =
      [("T", "http://x.com/s/a"), ("T", "http://x.com/s/a")] ∧
    ¬ ((scrape_category
        (fun p => if p == "http://x.com" || p == "http://x.com?page=3" then
          some [("T", "http://x.com/s/a")] else none)
        (fun _ h => h) "http://x.com" 2).map Prod.snd).Nodup := by
  constructor
  · decide
  · decide

lemma dedupByUrl_nodup_and_fresh :
    ∀ (l : List (String × String)) (seen : List String),
      ((dedupByUrl seen l).map Prod.snd).Nodup ∧
        ∀ u ∈ (dedupByUrl seen l).map Prod.snd, u ∉ seen := by
  intro l
  induction l with
  | nil => intro seen; exact ⟨List.nodup_nil, by intro u hu; cases hu⟩
  | cons a rest ih =>
    intro seen
    obtain ⟨t, u⟩ := a
    by_cases h : u ∈ seen
    · simpa [dedupByUrl, h] using ih seen
    · have hrec := ih (u :: seen)
      simp only [dedupByUrl, h, if_false, List.map_cons, List.nodup_cons]
      refine ⟨⟨?_, hrec.1⟩, ?_⟩
      · intro hmem
        exact (hrec.2 u hmem) (List.mem_cons_self u seen)
      · intro v hv hvseen
        rcases List.mem_cons.mp hv with h1 | h1
        · exact h (h1 ▸ hvseen)
        · exact hrec.2 v h1 (List.mem_cons_of_mem u hvseen)

/-- C7 amended: story links are deduplicated by url within each single listing
page (the extractor's seen-set), but the paginator applies no dedup across
pages, so a url occurring on two visited pages appears once per page in the
output. This theorem is the within-page half; the counterexample shows the
cross-page half fails. -/
theorem c7_dedup_within_single_page (uj : String → String → String) (base : String)
    (links : List (String × String)) :
    ((extract_story_links uj base links).map Prod.snd).Nodup := by
  unfold extract_story_links
  exact (dedupByUrl_nodup_and_fresh _ []).1

/- ## Chapter-ordering lemmas and claim C6 -/

lemma insertChapter_perm (a : ChapterRef) :
    ∀ l : List ChapterRef, (insertChapter a l).Perm (a :: l) := by
  intro l
  induction l with
  | nil => exact List.Perm.refl _
  | cons b rest ih =>
    unfold insertChapter
    by_cases h : a.2.2 ≤ b.2.2
    · simp [h]
    · simp only [h, if_false]
      exact (ih.cons b).trans (List.Perm.swap a b rest)

lemma sortChapters_perm : ∀ l : List ChapterRef, (sortChapters l).Perm l := by
  intro l
  induction l with
  | nil => exact List.Perm.refl _
  | cons a rest ih =>
    unfold sortChapters
    exact (insertChapter_perm a (sortChapters rest)).trans (ih.cons a)

lemma insertChapter_sorted (a : ChapterRef) :
    ∀ l : List ChapterRef, l.Sorted (fun x y : ChapterRef => x.2.2 ≤ y.2.2) →
      (insertChapter a l).Sorted (fun x y : ChapterRef => x.2.2 ≤ y.2.2) := by
  intro l
  induction l with
  | nil => intro _; simp [insertChapter, List.sorted_singleton]
  | cons b rest ih =>
    intro hsort
    rw [List.sorted_cons] at hsort
    obtain ⟨hb, hrest⟩ := hsort
    unfold insertChapter
    by_cases h : a.2.2 ≤ b.2.2
    · simp only [h, if_true]
      rw [List.sorted_cons]
      refine ⟨?_, by rw [List.sorted_cons]; exact ⟨hb, hrest⟩⟩
      intro c hc
      rcases List.mem_cons.mp hc with h1 | h1
      · exact h1 ▸ h
      · exact Nat.le_trans h (hb c h1)
    · simp only [h, if_false]
      rw [List.sorted_cons]
      refine ⟨?_, ih hrest⟩
      intro c hc
      have hc2 := (insertChapter_perm a rest).mem_iff.mp hc
      rcases List.mem_cons.mp hc2 with h1 | h1
      · exact h1 ▸ Nat.le_of_lt (Nat.lt_of_not_le h)
      · exact hb c h1

lemma sortChapters_sorted :
    ∀ l : List ChapterRef, (sortChapters l).Sorted (fun x y : ChapterRef => x.2.2 ≤ y.2.2) := by
  intro l
  induction l with
  | nil => exact List.sorted_nil
  | cons a rest ih => exact insertChapter_sorted a (sortChapters rest) ih

lemma insertChapter_filter_key (a : ChapterRef) (n : Nat) :
    ∀ l : List ChapterRef,
      (insertChapter a l).filter (fun c => c.2.2 == n) =
        (a :: l).filter (fun c => c.2.2 == n) := by
  intro l
  induction l with
  | nil => rfl
  | cons b rest ih =>
    unfold insertChapter
    by_cases h : a.2.2 ≤ b.2.2
    · simp [h]
    · simp only [h, if_false]
      have hlt : b.2.2 < a.2.2 := Nat.lt_of_not_le h
      by_cases ha : a.2.2 = n
      · have hbn : (b.2.2 == n) = false := by
          simp only [beq_eq_false_iff_ne, ne_eq]
          omega
        simp only [List.filter_cons, hbn, ih]
        simp [List.filter_cons, ha, hbn]
      · have han : (a.2.2 == n) = false := by simp [ha]
        simp only [List.filter_cons, ih]
        simp [List.filter_cons, han]

lemma sortChapters_filter_key (n : Nat) :
    ∀ l : List ChapterRef,
      (sortChapters l).filter (fun c => c.2.2 == n) = l.filter (fun c => c.2.2 == n) := by
  intro l
  induction l with
  | nil => rfl
  | cons a rest ih =>
    unfold sortChapters
    rw [insertChapter_filter_key a n (sortChapters rest)]
    simp only [List.filter_cons, ih]

lemma chapterCandidates_key (uj : String → String → String) (base st : String) :
    ∀ sets : List (List (String × String)),
      ∀ c ∈ chapterCandidates uj base st sets, c.2.2 = chapterNum st c.1 := by
  intro sets
  induction sets with
  | nil => intro c hc; cases hc
  | cons es rest ih =>
    intro c hc
    unfold chapterCandidates at hc
    by_cases hempty : (es.filterMap (fun a =>
        if !a.2.data.isEmpty && strContains a.2 "/s/" then
          some (a.1, (if strStartsWith a.2 "http" then a.2 else uj base a.2),
            chapterNum st a.1)
        else none)).isEmpty = true
    · rw [if_pos hempty] at hc
      exact ih c hc
    · rw [if_neg hempty] at hc
      rw [List.mem_filterMap] at hc
      obtain ⟨a, _, ha⟩ := hc
      by_cases hcond : (!a.2.data.isEmpty && strContains a.2 "/s/") = true
      · rw [if_pos hcond] at ha
        cases ha
        rfl
      · rw [if_neg hcond] at ha
        cases ha

/-- C6 counterexample: with series title "My Story", the anchor label
" my story " trims to a case-insensitive match of the title, so the claim
assigns it order 1 (sorted first); the code's tie rule (exact stripped equality,
or lowercased startswith — neither of which holds here) assigns 999 (sorted
last). The resulting chapter lists differ. -/
theorem c6_counterexample :
    resolveChapters (fun _ h => h) "http://b.com" "My Story"
        [[(" my story ", "/s/x1"), ("Ch. 2 Foo", "/s/x2")]] =
      [("Ch. 2 Foo", "/s/x2", 2), (" my story ", "/s/x1", 999)] ∧
    resolveChaptersClaimed (fun _ h => h) "http://b.com" "My Story"
        [[(" my story ", "/s/x1"), ("Ch. 2 Foo", "/s/x2")]] =
      [(" my story ", "/s/x1", 1), ("Ch. 2 Foo", "/s/x2", 2)] ∧
    resolveChapters (fun _ h => h) "http://b.com" "My Story"
        [[(" my story ", "/s/x1"), ("Ch. 2 Foo", "/s/x2")]] ≠
      resolveChaptersClaimed (fun _ h => h) "http://b.com" "My Story"
        [[(" my story ", "/s/x1"), ("Ch. 2 Foo", "/s/x2")]] := by
  refine ⟨by decide, by decide, by decide⟩

/-- C6 amended: each matched anchor's order key is the integer parsed from the
(Ch.|Pt.) digits token when present; else 1 when the stripped label equals the
stripped series title exactly (case-sensitive) or the lowercased label starts
with the lowercased title; else 999. The final chapter list is the stable sort of
the surviving anchors by that key ascending: a permutation of the candidate list,
sorted by key, and preserving the original relative order within every key. -/
theorem c6_stable_sort_of_code_keys (uj : String → String → String) (base st : String)
    (sets : List (List (String × String))) :
    (resolveChapters uj base st sets).Perm (chapterCandidates uj base st sets) ∧
    (resolveChapters uj base st sets).Sorted (fun x y : ChapterRef => x.2.2 ≤ y.2.2) ∧
    (∀ n : Nat, (resolveChapters uj base st sets).filter (fun c => c.2.2 == n) =
      (chapterCandidates uj base st sets).filter (fun c => c.2.2 == n)) ∧
    (∀ c ∈ chapterCandidates uj base st sets, c.2.2 = chapterNum st c.1) := by
  refine ⟨sortChapters_perm _, sortChapters_sorted _,
    fun n => sortChapters_filter_key n _, chapterCandidates_key uj base st sets⟩

/-- Witness for C6's amended theorem: concrete key computation through the
candidate list. -/
theorem c6_stable_sort_of_code_keys_witness :
    ("Ch. 2 Foo", "/s/x2", (2 : Nat)).2.2 = chapterNum "My Story" "Ch. 2 Foo" :=
  (c6_stable_sort_of_code_keys (fun _ h => h) "http://b.com" "My Story"
      [[(" my story ", "/s/x1"), ("Ch. 2 Foo", "/s/x2")]]).2.2.2
    ("Ch. 2 Foo", "/s/x2", 2) (by decide)

/- ## Traversal lemmas: queue bookkeeping, universes, measures -/

lemma enqueue_length (done nexts : List String) :
    ∀ todo, (enqueue done todo nexts).length ≤ todo.length + nexts.length := by
  unfold enqueue
  induction nexts with
  | nil => intro todo; simp
  | cons n ns ih =>
    intro todo
    simp only [List.foldl_cons]
    by_cases h : n ∈ done ∨ n ∈ todo
    · have := ih (if n ∈ done ∨ n ∈ todo then todo else todo ++ [n])
      rw [if_pos h] at this ⊢
      calc _ ≤ todo.length + ns.length := this
        _ ≤ todo.length + (ns.length + 1) := by omega
    · have := ih (if n ∈ done ∨ n ∈ todo then todo else todo ++ [n])
      rw [if_neg h] at this ⊢
      calc _ ≤ (todo ++ [n]).length + ns.length := this
        _ ≤ todo.length + (ns.length + 1) := by simp; omega

lemma enqueue_mem (done nexts : List String) :
    ∀ todo x, x ∈ enqueue done todo nexts → x ∈ todo ∨ x ∈ nexts := by
  unfold enqueue
  induction nexts with
  | nil => intro todo x h; exact Or.inl h
  | cons n ns ih =>
    intro todo x h
    simp only [List.foldl_cons] at h
    rcases ih _ x h with h1 | h1
    · by_cases h2 : n ∈ done ∨ n ∈ todo
      · rw [if_pos h2] at h1
        exact Or.inl h1
      · rw [if_neg h2] at h1
        rcases List.mem_append.mp h1 with h3 | h3
        · exact Or.inl h3
        · exact Or.inr (by simp at h3; simp [h3])
    · exact Or.inr (List.mem_cons_of_mem n h1)

lemma lookup_mem {β : Type} (l : List (String × β)) (a : String) (b : β) :
    l.lookup a = some b → (a, b) ∈ l := by
  induction l with
  | nil => intro h; simp [List.lookup] at h
  | cons hd tl ih =>
    intro h
    rw [List.lookup] at h
    split at h
    · next heq =>
      simp at heq
      cases h
      simp [heq]
    · simp [ih h]

lemma le_foldr_max (base : Nat) : ∀ l : List Nat, base ≤ l.foldr Nat.max base := by
  intro l
  induction l with
  | nil => exact Nat.le_refl base
  | cons a rest ih => exact Nat.le_trans ih (Nat.le_max_right a _)

lemma mem_le_foldr_max (base : Nat) : ∀ l : List Nat, ∀ x ∈ l, x ≤ l.foldr Nat.max base := by
  intro l
  induction l with
  | nil => intro x hx; cases hx
  | cons a rest ih =>
    intro x hx
    rcases List.mem_cons.mp hx with h | h
    · subst h
      exact Nat.le_max_left x _
    · exact Nat.le_trans (ih x h) (Nat.le_max_right a _)

/-- Max out-degree bound: the largest nexts-list length over the world, at least
`base` (used for the seed's pre-fetched links). -/
def maxNexts (world : List (String × PageData)) (base : Nat) : Nat :=
  (world.map (fun p => p.2.nexts.length)).foldr Nat.max base

lemma maxNexts_base (world : List (String × PageData)) (base : Nat) : base ≤ maxNexts world base :=
  le_foldr_max base _

lemma maxNexts_lookup (world : List (String × PageData)) (base : Nat) (u : String)
    (pd : PageData) (h : world.lookup u = some pd) :
    pd.nexts.length ≤ maxNexts world base := by
  have hmem := lookup_mem world u pd h
  exact mem_le_foldr_max base _ _ (List.mem_map.mpr ⟨(u, pd), hmem, rfl⟩)

/-- Every url a story walk can ever enqueue: the seed, its pre-fetched links, and
every key and discovered link of the world. -/
def storyUniverse (world : List (String × PageData)) (surl : String) (chs : List String) :
    Finset String :=
  (surl :: (chs ++ world.map Prod.fst ++ world.flatMap (fun p => p.2.nexts))).toFinset

lemma storyUniverse_seed (world : List (String × PageData)) (surl : String) (chs : List String) :
    surl ∈ storyUniverse world surl chs := by
  simp [storyUniverse]

lemma storyUniverse_chs (world : List (String × PageData)) (surl : String) (chs : List String)
    (x : String) (h : x ∈ chs) : x ∈ storyUniverse world surl chs := by
  simp [storyUniverse, h]

lemma storyUniverse_nexts (world : List (String × PageData)) (surl : String) (chs : List String)
    (u : String) (pd : PageData) (hlu : world.lookup u = some pd) :
    ∀ x ∈ pd.nexts, x ∈ storyUniverse world surl chs := by
  intro x hx
  have hmem := lookup_mem world u pd hlu
  simp only [storyUniverse, List.mem_toFinset, List.mem_cons, List.mem_append]
  refine Or.inr (Or.inr ?_)
  exact List.mem_flatMap.mpr ⟨(u, pd), hmem, hx⟩

lemma card_sdiff_insert (U done : Finset String) (cu : String) (h : cu ∈ U) (h2 : cu ∉ done) :
    (U \ insert cu done).card + 1 = (U \ done).card := by
  have h3 : U \ insert cu done = (U \ done).erase cu := by
    ext x
    simp only [Finset.mem_sdiff, Finset.mem_erase, Finset.mem_insert]
    tauto
  rw [h3, Finset.card_erase_of_mem (by simp [Finset.mem_sdiff, h, h2])]
  have : 0 < (U \ done).card :=
    Finset.card_pos.mpr ⟨cu, by simp [Finset.mem_sdiff, h, h2]⟩
  omega

/-- Master invariant of the single-story walk: the fetch trace stays duplicate
free, the part counter advances exactly once per processed url, and a url whose
fetch failed is never among the processed ones. -/
lemma storyWalkAux_invariants (world : List (String × PageData)) (surl : String)
    (pp chs : List String) :
    ∀ fuel todo done part allc trace processed r,
      storyWalkAux world surl pp chs fuel todo done part allc trace processed = some r →
      (trace.map Prod.fst).Nodup →
      (∀ u ∈ trace.map Prod.fst, u ∈ done) →
      (∀ u ∈ processed, u ∈ done) →
      (∀ u, (u, false) ∈ trace → u ∉ processed) →
      (r.trace.map Prod.fst).Nodup ∧
        r.part + processed.length = part + r.processed.length ∧
        (∀ u, (u, false) ∈ r.trace → u ∉ r.processed) := by
  intro fuel
  induction fuel with
  | zero =>
    intro todo done part allc trace processed r hrun hnd hsub hproc hfail
    cases todo with
    | nil =>
      simp only [storyWalkAux] at hrun
      cases hrun
      exact ⟨hnd, rfl, hfail⟩
    | cons cu rest => simp [storyWalkAux] at hrun
  | succ f ih =>
    intro todo done part allc trace processed r hrun hnd hsub hproc hfail
    cases todo with
    | nil =>
      simp only [storyWalkAux] at hrun
      cases hrun
      exact ⟨hnd, rfl, hfail⟩
    | cons cu rest =>
      simp only [storyWalkAux] at hrun
      by_cases hdone : cu ∈ done
      · rw [if_pos hdone] at hrun
        exact ih rest done part allc trace processed r hrun hnd hsub hproc hfail
      · rw [if_neg hdone] at hrun
        by_cases hsurl : cu = surl
        · rw [if_pos hsurl] at hrun
          have hres := ih _ _ _ _ _ _ r hrun hnd
            (fun u hu => List.mem_cons_of_mem cu (hsub u hu))
            (fun u hu => by
              rcases List.mem_append.mp hu with h1 | h1
              · exact List.mem_cons_of_mem cu (hproc u h1)
              · simp only [List.mem_singleton] at h1
                simp [h1])
            (fun u hu hmem => by
              rcases List.mem_append.mp hmem with h1 | h1
              · exact hfail u hu h1
              · simp only [List.mem_singleton] at h1
                subst h1
                exact hdone (hsub u (List.mem_map.mpr ⟨(u, false), hu, rfl⟩)))
          refine ⟨hres.1, ?_, hres.2.2⟩
          have hcount := hres.2.1
          simp only [List.length_append, List.length_singleton] at hcount
          omega
        · rw [if_neg hsurl] at hrun
          cases hlu : world.lookup cu with
          | none =>
            rw [hlu] at hrun
            have hndf : ((trace ++ [(cu, false)]).map Prod.fst).Nodup := by
              simp only [List.map_append, List.map_cons, List.map_nil]
              rw [List.nodup_append]
              refine ⟨hnd, List.nodup_singleton cu, ?_⟩
              intro a ha hb
              simp only [List.mem_singleton] at hb
              subst hb
              exact hdone (hsub a ha)
            have hres := ih _ _ _ _ _ _ r hrun hndf
              (fun u hu => by
                simp only [List.map_append, List.map_cons, List.map_nil,
                  List.mem_append, List.mem_singleton] at hu
                rcases hu with h1 | h1
                · exact List.mem_cons_of_mem cu (hsub u h1)
                · simp [h1])
              (fun u hu => List.mem_cons_of_mem cu (hproc u hu))
              (fun u hu hmem => by
                rcases List.mem_append.mp hu with h1 | h1
                · exact hfail u h1 hmem
                · simp only [List.mem_singleton, Prod.mk.injEq] at h1
                  obtain ⟨h1a, h1b⟩ := h1
                  subst h1a
                  exact hdone (hproc u hmem))
            exact hres
          | some pd =>
            rw [hlu] at hrun
            have hndt : ((trace ++ [(cu, true)]).map Prod.fst).Nodup := by
              simp only [List.map_append, List.map_cons, List.map_nil]
              rw [List.nodup_append]
              refine ⟨hnd, List.nodup_singleton cu, ?_⟩
              intro a ha hb
              simp only [List.mem_singleton] at hb
              subst hb
              exact hdone (hsub a ha)
            have hres := ih _ _ _ _ _ _ r hrun hndt
              (fun u hu => by
                simp only [List.map_append, List.map_cons, List.map_nil,
                  List.mem_append, List.mem_singleton] at hu
                rcases hu with h1 | h1
                · exact List.mem_cons_of_mem cu (hsub u h1)
                · simp [h1])
              (fun u hu => by
                rcases List.mem_append.mp hu with h1 | h1
                · exact List.mem_cons_of_mem cu (hproc u h1)
                · simp only [List.mem_singleton] at h1
                  simp [h1])
              (fun u hu hmem => by
                rcases List.mem_append.mp hu with h1 | h1
                · rcases List.mem_append.mp hmem with h2 | h2
                  · exact hfail u h1 h2
                  · simp only [List.mem_singleton] at h2
                    subst h2
                    exact hdone (hsub u (List.mem_map.mpr ⟨(u, false), h1, rfl⟩))
                · simp only [List.mem_singleton, Prod.mk.injEq] at h1
                  exact absurd h1.2 (by simp))
            refine ⟨hres.1, ?_, hres.2.2⟩
            have hcount := hres.2.1
            simp only [List.length_append, List.length_singleton] at hcount
            omega

/-- Termination of the single-story walk: with fuel at least the measure
(queue length plus (1 + max out-degree) times the unvisited part of the finite
url universe) the walk completes. Each iteration either drops a queued url or
moves a fresh url into the visited set, shrinking the measure. -/
lemma storyWalkAux_isSome (world : List (String × PageData)) (surl : String)
    (pp chs : List String) :
    ∀ fuel todo done part allc trace processed,
      (∀ x ∈ todo, x ∈ storyUniverse world surl chs) →
      todo.length + (1 + maxNexts world chs.length) *
        ((storyUniverse world surl chs) \ done.toFinset).card ≤ fuel →
      (storyWalkAux world surl pp chs fuel todo done part allc trace processed).isSome = true := by
  intro fuel
  induction fuel with
  | zero =>
    intro todo done part allc trace processed hsub hm
    cases todo with
    | nil => simp [storyWalkAux]
    | cons cu rest =>
      simp only [List.length_cons] at hm
      omega
  | succ f ih =>
    intro todo done part allc trace processed hsub hm
    cases todo with
    | nil => simp [storyWalkAux]
    | cons cu rest =>
      have hcu : cu ∈ storyUniverse world surl chs := hsub cu (List.mem_cons_self cu rest)
      have hrest : ∀ x ∈ rest, x ∈ storyUniverse world surl chs :=
        fun x hx => hsub x (List.mem_cons_of_mem cu hx)
      simp only [storyWalkAux]
      by_cases hdone : cu ∈ done
      · rw [if_pos hdone]
        apply ih rest done part allc trace processed hrest
        simp only [List.length_cons] at hm
        omega
      · rw [if_neg hdone]
        have hcune : cu ∉ done.toFinset := by simpa using hdone
        have hcard := card_sdiff_insert (storyUniverse world surl chs) done.toFinset cu hcu hcune
        have htof : (cu :: done).toFinset = insert cu done.toFinset := List.toFinset_cons
        by_cases hsurl : cu = surl
        · rw [if_pos hsurl]
          apply ih
          · intro x hx
            rcases enqueue_mem (cu :: done) chs rest x hx with h1 | h1
            · exact hrest x h1
            · exact storyUniverse_chs world surl chs x h1
          · have hlen := enqueue_length (cu :: done) chs rest
            have hchs : chs.length ≤ maxNexts world chs.length := maxNexts_base world chs.length
            rw [htof]
            simp only [List.length_cons] at hm
            rw [← hcard] at hm
            have hmul : (1 + maxNexts world chs.length) *
                (((storyUniverse world surl chs) \ insert cu done.toFinset).card + 1) =
              (1 + maxNexts world chs.length) *
                ((storyUniverse world surl chs) \ insert cu done.toFinset).card +
                (1 + maxNexts world chs.length) := by ring
            rw [hmul] at hm
            generalize hD : (1 + maxNexts world chs.length) *
              ((storyUniverse world surl chs) \ insert cu done.toFinset).card = D at hm ⊢
            omega
        · rw [if_neg hsurl]
          cases hlu : world.lookup cu with
          | none =>
            simp only [hlu]
            apply ih rest (cu :: done) part allc (trace ++ [(cu, false)]) processed hrest
            rw [htof]
            simp only [List.length_cons] at hm
            rw [← hcard] at hm
            have hmul : (1 + maxNexts world chs.length) *
                (((storyUniverse world surl chs) \ insert cu done.toFinset).card + 1) =
              (1 + maxNexts world chs.length) *
                ((storyUniverse world surl chs) \ insert cu done.toFinset).card +
                (1 + maxNexts world chs.length) := by ring
            rw [hmul] at hm
            generalize hD : (1 + maxNexts world chs.length) *
              ((storyUniverse world surl chs) \ insert cu done.toFinset).card = D at hm ⊢
            omega
          | some pd =>
            simp only [hlu]
            apply ih
            · intro x hx
              rcases enqueue_mem (cu :: done) pd.nexts rest x hx with h1 | h1
              · exact hrest x h1
              · exact storyUniverse_nexts world surl chs cu pd hlu x h1
            · have hlen := enqueue_length (cu :: done) pd.nexts rest
              have hnx : pd.nexts.length ≤ maxNexts world chs.length :=
                maxNexts_lookup world chs.length cu pd hlu
              rw [htof]
              simp only [List.length_cons] at hm
              rw [← hcard] at hm
              have hmul : (1 + maxNexts world chs.length) *
                  (((storyUniverse world surl chs) \ insert cu done.toFinset).card + 1) =
                (1 + maxNexts world chs.length) *
                  ((storyUniverse world surl chs) \ insert cu done.toFinset).card +
                  (1 + maxNexts world chs.length) := by ring
              rw [hmul] at hm
              generalize hD : (1 + maxNexts world chs.length) *
                ((storyUniverse world surl chs) \ insert cu done.toFinset).card = D at hm ⊢
              omega

/-- The series-discovery walk keeps its fetch trace duplicate free. -/
lemma findSeriesAux_trace_nodup (world : List (String × PageData)) :
    ∀ fuel todo done trace r,
      findSeriesAux world fuel todo done trace = some r →
      (trace.map Prod.fst).Nodup →
      (∀ u ∈ trace.map Prod.fst, u ∈ done) →
      (r.2.map Prod.fst).Nodup := by
  intro fuel
  induction fuel with
  | zero =>
    intro todo done trace r hrun hnd hsub
    cases todo with
    | nil =>
      simp only [findSeriesAux] at hrun
      cases hrun
      exact hnd
    | cons cu rest => simp [findSeriesAux] at hrun
  | succ f ih =>
    intro todo done trace r hrun hnd hsub
    cases todo with
    | nil =>
      simp only [findSeriesAux] at hrun
      cases hrun
      exact hnd
    | cons cu rest =>
      simp only [findSeriesAux] at hrun
      by_cases hdone : cu ∈ done
      · rw [if_pos hdone] at hrun
        exact ih rest done trace r hrun hnd hsub
      · rw [if_neg hdone] at hrun
        have hndt : ∀ b, ((trace ++ [(cu, b)]).map Prod.fst).Nodup := by
          intro b
          simp only [List.map_append, List.map_cons, List.map_nil]
          rw [List.nodup_append]
          refine ⟨hnd, List.nodup_singleton cu, ?_⟩
          intro a ha hb
          simp only [List.mem_singleton] at hb
          subst hb
          exact hdone (hsub a ha)
        have hsubt : ∀ b u, u ∈ ((trace ++ [(cu, b)]).map Prod.fst) → u ∈ cu :: done := by
          intro b u hu
          simp only [List.map_append, List.map_cons, List.map_nil, List.mem_append,
            List.mem_singleton] at hu
          rcases hu with h1 | h1
          · exact List.mem_cons_of_mem cu (hsub u h1)
          · simp [h1]
        cases hlu : world.lookup cu with
        | none =>
          simp only [hlu] at hrun
          exact ih rest (cu :: done) (trace ++ [(cu, false)]) r hrun (hndt false) (hsubt false)
        | some pd =>
          simp only [hlu] at hrun
          cases hser : pd.series with
          | some ser =>
            simp only [hser] at hrun
            cases hrun
            exact hndt true
          | none =>
            simp only [hser] at hrun
            exact ih (enqueue (cu :: done) rest pd.nexts) (cu :: done) (trace ++ [(cu, true)]) r
              hrun (hndt true) (hsubt true)

/-- Termination of the series-discovery walk, with the same measure as the story
walk (universe without extra seed links). -/
lemma findSeriesAux_isSome (world : List (String × PageData)) (surl : String) :
    ∀ fuel todo done trace,
      (∀ x ∈ todo, x ∈ storyUniverse world surl []) →
      todo.length + (1 + maxNexts world 0) *
        ((storyUniverse world surl []) \ done.toFinset).card ≤ fuel →
      (findSeriesAux world fuel todo done trace).isSome = true := by
  intro fuel
  induction fuel with
  | zero =>
    intro todo done trace hsub hm
    cases todo with
    | nil => simp [findSeriesAux]
    | cons cu rest =>
      simp only [List.length_cons] at hm
      omega
  | succ f ih =>
    intro todo done trace hsub hm
    cases todo with
    | nil => simp [findSeriesAux]
    | cons cu rest =>
      have hcu : cu ∈ storyUniverse world surl [] := hsub cu (List.mem_cons_self cu rest)
      have hrest : ∀ x ∈ rest, x ∈ storyUniverse world surl [] :=
        fun x hx => hsub x (List.mem_cons_of_mem cu hx)
      simp only [findSeriesAux]
      by_cases hdone : cu ∈ done
      · rw [if_pos hdone]
        apply ih rest done trace hrest
        simp only [List.length_cons] at hm
        omega
      · rw [if_neg hdone]
        have hcune : cu ∉ done.toFinset := by simpa using hdone
        have hcard := card_sdiff_insert (storyUniverse world surl []) done.toFinset cu hcu hcune
        have htof : (cu :: done).toFinset = insert cu done.toFinset := List.toFinset_cons
        cases hlu : world.lookup cu with
        | none =>
          simp only [hlu]
          apply ih rest (cu :: done) (trace ++ [(cu, false)]) hrest
          rw [htof]
          simp only [List.length_cons] at hm
          rw [← hcard] at hm
          have hmul : (1 + maxNexts world 0) *
              (((storyUniverse world surl []) \ insert cu done.toFinset).card + 1) =
            (1 + maxNexts world 0) *
              ((storyUniverse world surl []) \ insert cu done.toFinset).card +
              (1 + maxNexts world 0) := by ring
          rw [hmul] at hm
          generalize hD : (1 + maxNexts world 0) *
            ((storyUniverse world surl []) \ insert cu done.toFinset).card = D at hm ⊢
          omega
        | some pd =>
          simp only [hlu]
          cases hser : pd.series with
          | some ser => simp
          | none =>
            apply ih
            · intro x hx
              rcases enqueue_mem (cu :: done) pd.nexts rest x hx with h1 | h1
              · exact hrest x h1
              · exact storyUniverse_nexts world surl [] cu pd hlu x h1
            · have hlen := enqueue_length (cu :: done) pd.nexts rest
              have hnx : pd.nexts.length ≤ maxNexts world 0 := maxNexts_lookup world 0 cu pd hlu
              rw [htof]
              simp only [List.length_cons] at hm
              rw [← hcard] at hm
              have hmul : (1 + maxNexts world 0) *
                  (((storyUniverse world surl []) \ insert cu done.toFinset).card + 1) =
                (1 + maxNexts world 0) *
                  ((storyUniverse world surl []) \ insert cu done.toFinset).card +
                  (1 + maxNexts world 0) := by ring
              rw [hmul] at hm
              generalize hD : (1 + maxNexts world 0) *
                ((storyUniverse world surl []) \ insert cu done.toFinset).card = D at hm ⊢
              omega

/-- C2: a single traversal call — the chapter/page walk or the series-discovery
walk — terminates on every (finite) link graph, cyclic ones included, and
fetches each url at most once: the fetch traces are duplicate free. -/
theorem c2_traversals_terminate_without_refetch (world : List (String × PageData))
    (surl : String) (pp chs : List String) :
    (∃ fuel r, storyWalk world surl pp chs fuel = some r ∧ (r.trace.map Prod.fst).Nodup) ∧
    (∃ fuel r, findSeries world surl fuel = some r ∧ (r.2.map Prod.fst).Nodup) := by
  constructor
  · have hsome := storyWalkAux_isSome world surl pp chs
      (1 + (1 + maxNexts world chs.length) *
        ((storyUniverse world surl chs) \ (([] : List String)).toFinset).card)
      [surl] [] 1 [] [] []
      (fun x hx => by
        rcases List.mem_singleton.mp hx with rfl
        exact storyUniverse_seed world x chs)
      (by simp)
    obtain ⟨r, hr⟩ := Option.isSome_iff_exists.mp hsome
    refine ⟨_, r, hr, ?_⟩
    exact (storyWalkAux_invariants world surl pp chs _ [surl] [] 1 [] [] [] r hr
      List.nodup_nil (by intro u hu; cases hu) (by intro u hu; cases hu)
      (by intro u hu; cases hu)).1
  · have hsome := findSeriesAux_isSome world surl
      (1 + (1 + maxNexts world 0) *
        ((storyUniverse world surl []) \ (([] : List String)).toFinset).card)
      [surl] [] []
      (fun x hx => by
        rcases List.mem_singleton.mp hx with rfl
        exact storyUniverse_seed world x [])
      (by simp)
    obtain ⟨r, hr⟩ := Option.isSome_iff_exists.mp hsome
    refine ⟨_, r, hr, ?_⟩
    exact findSeriesAux_trace_nodup world _ [surl] [] [] r hr
      List.nodup_nil (by intro u hu; cases hu)

/-- Master invariant of the per-chapter walk (same discipline as the story walk,
no pre-fetched seed). -/
lemma chapterWalkAux_invariants (world : List (String × PageData)) :
    ∀ fuel todo done part pc trace processed r,
      chapterWalkAux world fuel todo done part pc trace processed = some r →
      (trace.map Prod.fst).Nodup →
      (∀ u ∈ trace.map Prod.fst, u ∈ done) →
      (∀ u ∈ processed, u ∈ done) →
      (∀ u, (u, false) ∈ trace → u ∉ processed) →
      (r.trace.map Prod.fst).Nodup ∧
        r.part + processed.length = part + r.processed.length ∧
        (∀ u, (u, false) ∈ r.trace → u ∉ r.processed) := by
  intro fuel
  induction fuel with
  | zero =>
    intro todo done part pc trace processed r hrun hnd hsub hproc hfail
    cases todo with
    | nil =>
      simp only [chapterWalkAux] at hrun
      cases hrun
      exact ⟨hnd, rfl, hfail⟩
    | cons cu rest => simp [chapterWalkAux] at hrun
  | succ f ih =>
    intro todo done part pc trace processed r hrun hnd hsub hproc hfail
    cases todo with
    | nil =>
      simp only [chapterWalkAux] at hrun
      cases hrun
      exact ⟨hnd, rfl, hfail⟩
    | cons cu rest =>
      simp only [chapterWalkAux] at hrun
      by_cases hdone : cu ∈ done
      · rw [if_pos hdone] at hrun
        exact ih rest done part pc trace processed r hrun hnd hsub hproc hfail
      · rw [if_neg hdone] at hrun
        cases hlu : world.lookup cu with
        | none =>
          rw [hlu] at hrun
          have hndf : ((trace ++ [(cu, false)]).map Prod.fst).Nodup := by
            simp only [List.map_append, List.map_cons, List.map_nil]
            rw [List.nodup_append]
            refine ⟨hnd, List.nodup_singleton cu, ?_⟩
            intro a ha hb
            simp only [List.mem_singleton] at hb
            subst hb
            exact hdone (hsub a ha)
          exact ih _ _ _ _ _ _ r hrun hndf
            (fun u hu => by
              simp only [List.map_append, List.map_cons, List.map_nil,
                List.mem_append, List.mem_singleton] at hu
              rcases hu with h1 | h1
              · exact List.mem_cons_of_mem cu (hsub u h1)
              · simp [h1])
            (fun u hu => List.mem_cons_of_mem cu (hproc u hu))
            (fun u hu hmem => by
              rcases List.mem_append.mp hu with h1 | h1
              · exact hfail u h1 hmem
              · simp only [List.mem_singleton, Prod.mk.injEq] at h1
                obtain ⟨h1a, h1b⟩ := h1
                subst h1a
                exact hdone (hproc u hmem))
        | some pd =>
          rw [hlu] at hrun
          have hndt : ((trace ++ [(cu, true)]).map Prod.fst).Nodup := by
            simp only [List.map_append, List.map_cons, List.map_nil]
            rw [List.nodup_append]
            refine ⟨hnd, List.nodup_singleton cu, ?_⟩
            intro a ha hb
            simp only [List.mem_singleton] at hb
            subst hb
            exact hdone (hsub a ha)
          have hres := ih _ _ _ _ _ _ r hrun hndt
            (fun u hu => by
              simp only [List.map_append, List.map_cons, List.map_nil,
                List.mem_append, List.mem_singleton] at hu
              rcases hu with h1 | h1
              · exact List.mem_cons_of_mem cu (hsub u h1)
              · simp [h1])
            (fun u hu => by
              rcases List.mem_append.mp hu with h1 | h1
              · exact List.mem_cons_of_mem cu (hproc u h1)
              · simp only [List.mem_singleton] at h1
                simp [h1])
            (fun u hu hmem => by
              rcases List.mem_append.mp hu with h1 | h1
              · rcases List.mem_append.mp hmem with h2 | h2
                · exact hfail u h1 h2
                · simp only [List.mem_singleton] at h2
                  subst h2
                  exact hdone (hsub u (List.mem_map.mpr ⟨(u, false), h1, rfl⟩))
              · simp only [List.mem_singleton, Prod.mk.injEq] at h1
                exact absurd h1.2 (by simp))
          refine ⟨hres.1, ?_, hres.2.2⟩
          have hcount := hres.2.1
          simp only [List.length_append, List.length_singleton] at hcount
          omega

/-- C3 counterexample: the seed has paragraphs and two next links b and c; b's
fetch fails, c succeeds. The code does not advance the part index for the failed
b, so c is tagged PART 2 — there is no gap, against the claim that a failed page
still consumes an index (which would tag c PART 3). The claimed-walk variant
(part advancing on failures, as the claim states) produces PART 3. -/
theorem c3_counterexample :
    (storyWalk [("c", ⟨"", ["Gamma"], [], none, none, []⟩)] "a" ["Alpha"] ["b", "c"] 9).map
        WalkResult.allc = some ["Alpha", "PART 2", "Gamma"] ∧
    (storyWalkClaimed [("c", ⟨"", ["Gamma"], [], none, none, []⟩)] "a" ["Alpha"] ["b", "c"]
        9).map WalkResult.allc = some ["Alpha", "PART 3", "Gamma"] ∧
    ("PART 3" ∈ (["Alpha", "PART 2", "Gamma"] : List String)) = False := by
  refine ⟨by decide, by decide, by simp⟩

/-- C3 amended: during a chapter/page walk the 1-based part index advances once
per url popped from the queue that is unvisited and successfully fetched (the
seed's cached fetch counting as a success) — a url whose fetch failed does not
advance it and so cannot leave a gap in the visible part numbering — and a
part-boundary marker is inserted before a page's paragraphs exactly when the
page has paragraphs and its index exceeds 1. -/
theorem c3_part_index_counts_successes (world : List (String × PageData)) (surl : String)
    (pp chs : List String) (fuel : Nat) :
    (∀ r, storyWalk world surl pp chs fuel = some r →
      r.part = 1 + r.processed.length ∧ ∀ u, (u, false) ∈ r.trace → u ∉ r.processed) ∧
    (∀ todo r, chapterWalkAux world fuel todo [] 1 [] [] [] = some r →
      r.part = 1 + r.processed.length ∧ ∀ u, (u, false) ∈ r.trace → u ∉ r.processed) ∧
    (∀ p ps, ps ≠ [] → 1 < p → contrib p ps = partMarker p :: ps) ∧
    (∀ p ps, ¬ 1 < p → contrib p ps = ps) ∧
    (∀ p, contrib p ([] : List String) = []) := by
  refine ⟨?_, ?_, ?_, ?_, ?_⟩
  · intro r hr
    have h := storyWalkAux_invariants world surl pp chs fuel [surl] [] 1 [] [] [] r hr
      List.nodup_nil (by intro u hu; cases hu) (by intro u hu; cases hu)
      (by intro u hu; cases hu)
    refine ⟨?_, h.2.2⟩
    have := h.2.1
    simp only [List.length_nil] at this
    omega
  · intro todo r hr
    have h := chapterWalkAux_invariants world fuel todo [] 1 [] [] [] r hr
      List.nodup_nil (by intro u hu; cases hu) (by intro u hu; cases hu)
      (by intro u hu; cases hu)
    refine ⟨?_, h.2.2⟩
    have := h.2.1
    simp only [List.length_nil] at this
    omega
  · intro p ps hps hp
    simp [contrib, hps, hp]
  · intro p ps hp
    cases ps with
    | nil => simp [contrib]
    | cons a l => simp [contrib, hp]
  · intro p
    simp [contrib]

/-- Witness for C3's amended theorem at the counterexample world: the final index
is one plus the number of processed pages, and the failed url b is not among
them. -/
theorem c3_part_index_counts_successes_witness :
    (⟨["Alpha", "PART 2", "Gamma"], [("b", false), ("c", true)], ["a", "c"], 3⟩ :
        WalkResult).part =
      1 + (⟨["Alpha", "PART 2", "Gamma"], [("b", false), ("c", true)], ["a", "c"], 3⟩ :
        WalkResult).processed.length ∧
    "b" ∉ (⟨["Alpha", "PART 2", "Gamma"], [("b", false), ("c", true)], ["a", "c"], 3⟩ :
        WalkResult).processed := by
  have h := (c3_part_index_counts_successes [("c", ⟨"", ["Gamma"], [], none, none, []⟩)] "a"
      ["Alpha"] ["b", "c"] 9).1
    ⟨["Alpha", "PART 2", "Gamma"], [("b", false), ("c", true)], ["a", "c"], 3⟩ (by decide)
  exact ⟨h.1, h.2 "b" (by decide)⟩

/- ## Idempotent-skip claim C1 -/

/-- C1 counterexample: the artifact for the resolved title exists (fs answers
true for the sanitized title "T"), and the second run reports success (skip) —
but its fetch trace holds one request: the story page is fetched (line 195)
before the persistence check (lines 199-202), so the run does not perform zero
fetches. -/
theorem c1_counterexample :
    scrape_story [("http://x.com/s/a", ⟨"T", ["Body"], [], none, none, []⟩)] (fun _ h => h)
        (fun s => s == "T") "http://x.com" 9 "Unknown" "http://x.com/s/a" false =
      some (true, [("http://x.com/s/a", true)]) ∧
    ([("http://x.com/s/a", true)] : List (String × Bool)).length ≠ 0 := by
  refine ⟨by decide, by decide⟩

/-- C1 amended: when the sanitized output artifact for the resolved title already
exists, the pipeline reports success (skip) and performs no traversal beyond the
title-resolving fetches — in single-story mode exactly the one story-page fetch
that precedes the persistence check, and in series mode the series-discovery
fetches plus the series-page fetch. The second run therefore issues at least one
fetch, not zero. -/
theorem c1_skip_succeeds_after_title_fetch (world : List (String × PageData))
    (uj : String → String → String) (fs : String → Bool) (base : String) (fuel : Nat)
    (stitle surl : String) :
    (∀ pd, world.lookup surl = some pd →
      fs (sanitize_filename (if pd.title.data.isEmpty then stitle else pd.title)) = true →
      scrape_story world uj fs base fuel stitle surl false = some (true, [(surl, true)])) ∧
    (∀ ser tr spd, findSeriesAux world fuel [surl] [] [] = some (some ser, tr) →
      world.lookup ser = some spd →
      fs (sanitize_filename (spd.h1.getD stitle)) = true →
      scrape_story world uj fs base fuel stitle surl true = some (true, tr ++ [(ser, true)])) := by
  constructor
  · intro pd hpd hfs
    simp only [scrape_story, if_false, scrapeStorySingle, hpd, hfs, if_true]
    rfl
  · intro ser tr spd hdisc hser hfs
    simp only [scrape_story, if_true, hdisc, hser, hfs]

/-- Witness for C1's amended theorem at the counterexample input. -/
theorem c1_skip_succeeds_after_title_fetch_witness :
    scrape_story [("http://x.com/s/a", ⟨"T", ["Body"], [], none, none, []⟩)] (fun _ h => h)
        (fun s => s == "T") "http://x.com" 5 "Unknown" "http://x.com/s/a" false =
      some (true, [("http://x.com/s/a", true)]) :=
  (c1_skip_succeeds_after_title_fetch [("http://x.com/s/a", ⟨"T", ["Body"], [], none, none, []⟩)]
      (fun _ h => h) (fun s => s == "T") "http://x.com" 5 "Unknown" "http://x.com/s/a").1
    ⟨"T", ["Body"], [], none, none, []⟩ (by decide) (by decide)

end Scraper
